import Mathlib

/-!
Verification of the `iter-num-tools` sequence generators.

Values of the numeric type `T` are modelled as exact rationals `ℚ`; `usize`
indices are modelled as `ℕ`.  Rust operations that can panic (such as `usize`
subtraction underflow at construction time) are modelled as `Option`-returning
functions.  Note that Lean's `ℚ` division by zero returns `0`; it stands in for
the float `NaN` produced by the source at the same spots, and every statement
relying on a division carries the hypothesis that makes the divisor nonzero,
except where a degenerate division is exactly the point being examined.
-/

namespace IterNumTools

/-- `core::ops::Range<usize>` used as an iterator (the `over`/`range` field of
the sequence types): the pair `start..end`.  The source field `end` is a Lean
keyword and is called `stop` here. -/
structure RangeIter where
  start : Nat
  stop : Nat
deriving Repr, DecidableEq

/-- std `Range<usize>::next`: yield `start` and increment it while `start < end`. -/
def RangeIter.next (r : RangeIter) : Option (Nat × RangeIter) :=
  if r.start < r.stop then some (r.start, { r with start := r.start + 1 }) else none

/-- std `Range<usize>::next_back`: decrement `end` and yield it while `start < end`. -/
def RangeIter.next_back (r : RangeIter) : Option (Nat × RangeIter) :=
  if r.start < r.stop then some (r.stop - 1, { r with stop := r.stop - 1 }) else none

/-- std `Range<usize>::nth`: if `start + n < end`, skip straight to that index
and yield it; otherwise exhaust the range and yield nothing.  (The `checked_add`
in the std source cannot overflow in the `ℕ` model.) -/
def RangeIter.nth (r : RangeIter) (n : Nat) : Option Nat × RangeIter :=
  if r.start + n < r.stop then (some (r.start + n), { r with start := r.start + n + 1 })
  else (none, { r with start := r.stop })

/-- std `ExactSizeIterator for Range<usize>`: `end - start`. -/
def RangeIter.len (r : RangeIter) : Nat := r.stop - r.start

/-- std `Iterator::last` for `Range<usize>`: the final index, if any. -/
def RangeIter.last (r : RangeIter) : Option Nat :=
  if r.start < r.stop then some (r.stop - 1) else none

/-- The list produced by repeatedly calling `next` until it returns `None`
(the external consumer's collect loop); the `if` is `next`'s own test inlined. -/
def RangeIter.toList (r : RangeIter) : List Nat :=
  if _h : r.start < r.stop then r.start :: RangeIter.toList { start := r.start + 1, stop := r.stop }
  else []
termination_by r.stop - r.start
decreasing_by omega

/-- The list produced by repeatedly calling `next_back` until it returns `None`;
the `if` is `next_back`'s own test inlined. -/
def RangeIter.toListBack (r : RangeIter) : List Nat :=
  if _h : r.start < r.stop then
    (r.stop - 1) :: RangeIter.toListBack { start := r.start, stop := r.stop - 1 }
  else []
termination_by r.stop - r.start
decreasing_by omega

theorem RangeIter.toList_as_range (r : RangeIter) :
    r.toList = List.range' r.start (r.stop - r.start) := by
  rw [RangeIter.toList]
  split
  · rename_i h
    rw [RangeIter.toList_as_range { start := r.start + 1, stop := r.stop }]
    have : r.stop - r.start = (r.stop - (r.start + 1)) + 1 := by omega
    rw [this, List.range'_succ]
  · rename_i h
    have : r.stop - r.start = 0 := by omega
    simp [this]
termination_by r.stop - r.start
decreasing_by omega

theorem RangeIter.toListBack_as_reverse_range (r : RangeIter) :
    r.toListBack = (List.range' r.start (r.stop - r.start)).reverse := by
  rw [RangeIter.toListBack]
  split
  · rename_i h
    rw [RangeIter.toListBack_as_reverse_range { start := r.start, stop := r.stop - 1 }]
    have h1 : r.stop - r.start = (r.stop - 1 - r.start) + 1 := by omega
    rw [h1, List.range'_concat]
    have h2 : r.start + (r.stop - 1 - r.start) = r.stop - 1 := by omega
    simp [h2]
  · rename_i h
    have : r.stop - r.start = 0 := by omega
    simp [this]
termination_by r.stop - r.start
decreasing_by omega

/-- The coefficients of `Lerp<T>` (src/lerp.rs): interpolation from the index
interval `x0..=x1` to the value interval `y0..=y1`. -/
structure Lerp where
  x0 : ℚ
  x1 : ℚ
  y0 : ℚ
  y1 : ℚ
deriving Repr, DecidableEq

/-- `Lerp::lerp` (src/lerp.rs lines 68-72):
`((y0 * (x1 - x)) + (y1 * (x - x0))) / (x1 - x0)`.  When `x1 = x0` the source
divides by zero (float `NaN`); the `ℚ` model returns `0` there. -/
def Lerp.lerp (l : Lerp) (x : ℚ) : ℚ :=
  ((l.y0 * (l.x1 - x)) + (l.y1 * (x - l.x0))) / (l.x1 - l.x0)

/-- `LinSpace<T> = LerpIterPrim<T, Range<usize>, usize>` (src/linspace.rs line 5):
a `Lerp` plus the index iterator `over`. -/
structure LinSpace where
  lerp : Lerp
  over : RangeIter
deriving Repr, DecidableEq

/-- `LerpIterPrim::new(x0..=x1, y0..=y1, lo..hi)` with the `usize` bounds of the
first range converted into the value type. -/
def LinSpace.new (x0 x1 : Nat) (y0 y1 : ℚ) (lo hi : Nat) : LinSpace :=
  { lerp := { x0 := (x0 : ℚ), x1 := (x1 : ℚ), y0 := y0, y1 := y1 }
    over := { start := lo, stop := hi } }

/-- `IntoLinSpace for Range<T>::into_lin_space` (src/linspace.rs lines 41-49):
`LinSpace::new(0..=steps, start..=end, 0..steps)`. -/
def into_lin_space_exclusive (start stop : ℚ) (steps : Nat) : LinSpace :=
  LinSpace.new 0 steps start stop 0 steps

/-- `IntoLinSpace for RangeInclusive<T>::into_lin_space` (src/linspace.rs lines
32-39): `LinSpace::new(0..=steps - 1, self, 0..steps)`.  The `steps - 1` is a
`usize` subtraction that panics on underflow when `steps == 0`; the panic is
modelled as `none`. -/
def into_lin_space_inclusive (start stop : ℚ) (steps : Nat) : Option LinSpace :=
  if steps = 0 then none
  else some (LinSpace.new 0 (steps - 1) start stop 0 steps)

/-- `LerpIterPrim::next`: advance `over` and map the yielded index through the
lerp (after converting it into the value type). -/
def LinSpace.next (s : LinSpace) : Option (ℚ × LinSpace) :=
  match s.over.next with
  | some (x, r) => some (s.lerp.lerp (x : ℚ), { s with over := r })
  | none => none

/-- Collecting a `LinSpace`: since `LerpIterPrim` is a map adapter over `over`,
the collected list is the collected index range mapped through the lerp. -/
def LinSpace.toList (s : LinSpace) : List ℚ :=
  s.over.toList.map (fun x : Nat => s.lerp.lerp (x : ℚ))

/-- `LerpIterPrim::last` (src/lerp.rs): the last index of `over` mapped through
the lerp. -/
def LinSpace.last (s : LinSpace) : Option ℚ :=
  s.over.last.map (fun x : Nat => s.lerp.lerp (x : ℚ))

theorem into_lin_space_exclusive_toList (a b : ℚ) (n : Nat) :
    (into_lin_space_exclusive a b n).toList =
      (List.range' 0 n).map (fun i : Nat => Lerp.lerp ⟨0, (n : ℚ), a, b⟩ (i : ℚ)) := by
  unfold into_lin_space_exclusive LinSpace.new LinSpace.toList
  rw [RangeIter.toList_as_range]
  rfl

/-- C1: for the exclusive linear space over `start..end` with `n` steps, the
`i`-th yielded value (for `i < n`) equals `start + i * ((end - start) / n)` —
the closed form from the canonical start, not an accumulation. -/
theorem lin_space_exclusive_yields_closed_form (a b : ℚ) (n i : Nat) (h : i < n) :
    (into_lin_space_exclusive a b n).toList[i]? =
      some (a + (i : ℚ) * ((b - a) / (n : ℚ))) := by
  rw [into_lin_space_exclusive_toList]
  rw [List.getElem?_map]
  have hr : (List.range' 0 n)[i]? = some i := by
    rw [List.getElem?_range']
    · simp
    · exact h
  rw [hr, Option.map_some']
  congr 1
  unfold Lerp.lerp
  have hn : (n : ℚ) ≠ 0 := Nat.cast_ne_zero.mpr (by omega)
  field_simp
  ring

/-- Witness for C1 at `a = 2`, `b = 5`, `n = 3`, `i = 1`. -/
theorem lin_space_exclusive_yields_closed_form_witness :
    1 < 3 ∧ (into_lin_space_exclusive 2 5 3).toList[1]? =
      some (2 + (1 : ℚ) * ((5 - 2) / (3 : ℚ))) :=
  ⟨by decide, lin_space_exclusive_yields_closed_form 2 5 3 1 (by decide)⟩

/-- `core::ops::RangeInclusive<usize>` used as an iterator: `start..=end` plus
std's `exhausted` flag.  The source field `end` is a Lean keyword and is called
`stop` here. -/
structure RangeInclusiveIter where
  start : Nat
  stop : Nat
  exhausted : Bool
deriving Repr, DecidableEq

/-- std `RangeInclusive::is_empty`: `!(start <= end) || exhausted`. -/
def RangeInclusiveIter.isEmpty (r : RangeInclusiveIter) : Bool :=
  !(decide (r.start ≤ r.stop)) || r.exhausted

/-- std `RangeInclusive<usize>::next`: yield `start`; increment it while
`start < end`, and set `exhausted` when yielding the final value. -/
def RangeInclusiveIter.next (r : RangeInclusiveIter) : Option (Nat × RangeInclusiveIter) :=
  if r.isEmpty then none
  else if r.start < r.stop then some (r.start, { r with start := r.start + 1 })
  else some (r.start, { r with exhausted := true })

/-- std `RangeInclusive<usize>::next_back`: yield `end`; decrement it while
`start < end`, and set `exhausted` when yielding the final value. -/
def RangeInclusiveIter.next_back (r : RangeInclusiveIter) : Option (Nat × RangeInclusiveIter) :=
  if r.isEmpty then none
  else if r.start < r.stop then some (r.stop, { r with stop := r.stop - 1 })
  else some (r.stop, { r with exhausted := true })

/-- std `ExactSizeIterator for RangeInclusive<usize>`: `0` when empty, else
`end - start + 1`. -/
def RangeInclusiveIter.len (r : RangeInclusiveIter) : Nat :=
  if r.isEmpty then 0 else r.stop - r.start + 1

/-- The list produced by repeatedly calling `next` until it returns `None`;
the tests are `next`'s own tests inlined. -/
def RangeInclusiveIter.toList (r : RangeInclusiveIter) : List Nat :=
  if r.isEmpty then []
  else if r.start < r.stop then r.start :: RangeInclusiveIter.toList { r with start := r.start + 1 }
  else r.start :: RangeInclusiveIter.toList { r with exhausted := true }
termination_by (if r.exhausted then 0 else r.stop + 1 - r.start)
decreasing_by
  all_goals (simp_all [RangeInclusiveIter.isEmpty]; try omega)

/-- The list produced by repeatedly calling `next_back` until it returns `None`;
the tests are `next_back`'s own tests inlined. -/
def RangeInclusiveIter.toListBack (r : RangeInclusiveIter) : List Nat :=
  if r.isEmpty then []
  else if r.start < r.stop then
    r.stop :: RangeInclusiveIter.toListBack { r with stop := r.stop - 1 }
  else r.stop :: RangeInclusiveIter.toListBack { r with exhausted := true }
termination_by (if r.exhausted then 0 else r.stop + 1 - r.start)
decreasing_by
  all_goals (simp_all [RangeInclusiveIter.isEmpty]; try omega)

theorem RangeInclusiveIter.toList_closed_form (r : RangeInclusiveIter) :
    r.toList = if r.isEmpty then [] else List.range' r.start (r.stop + 1 - r.start) := by
  rw [RangeInclusiveIter.toList]
  split
  · simp
  · rename_i hne
    split
    · rename_i hlt
      rw [RangeInclusiveIter.toList_closed_form { r with start := r.start + 1 }]
      have hne2 : ({ r with start := r.start + 1 } : RangeInclusiveIter).isEmpty = false := by
        simp_all [RangeInclusiveIter.isEmpty]
        omega
      simp only [hne2, hne, Bool.false_eq_true, if_false]
      have h1 : r.stop + 1 - r.start = (r.stop + 1 - (r.start + 1)) + 1 := by omega
      rw [h1, List.range'_succ]
    · rename_i hge
      rw [RangeInclusiveIter.toList_closed_form { r with exhausted := true }]
      have hse : r.start = r.stop := by
        simp_all [RangeInclusiveIter.isEmpty]
        omega
      simp [RangeInclusiveIter.isEmpty, hse, List.range']
termination_by (if r.exhausted then 0 else r.stop + 1 - r.start)
decreasing_by
  all_goals (simp_all [RangeInclusiveIter.isEmpty]; try omega)

theorem RangeInclusiveIter.toListBack_closed_form (r : RangeInclusiveIter) :
    r.toListBack =
      if r.isEmpty then [] else (List.range' r.start (r.stop + 1 - r.start)).reverse := by
  rw [RangeInclusiveIter.toListBack]
  split
  · simp
  · rename_i hne
    split
    · rename_i hlt
      rw [RangeInclusiveIter.toListBack_closed_form { r with stop := r.stop - 1 }]
      have hne2 : ({ r with stop := r.stop - 1 } : RangeInclusiveIter).isEmpty = false := by
        simp_all [RangeInclusiveIter.isEmpty]
        omega
      simp only [hne2, hne, Bool.false_eq_true, if_false]
      have h1 : r.stop + 1 - r.start = (r.stop - 1 + 1 - r.start) + 1 := by omega
      rw [h1, List.range'_concat]
      have h2 : r.start + (r.stop - 1 + 1 - r.start) = r.stop := by omega
      simp [h2]
    · rename_i hge
      rw [RangeInclusiveIter.toListBack_closed_form { r with exhausted := true }]
      have hse : r.start = r.stop := by
        simp_all [RangeInclusiveIter.isEmpty]
        omega
      simp [RangeInclusiveIter.isEmpty, hse, List.range']
termination_by (if r.exhausted then 0 else r.stop + 1 - r.start)
decreasing_by
  all_goals (simp_all [RangeInclusiveIter.isEmpty]; try omega)

/-- `IntoSpace::new_inclusive` (src/space.rs lines 40-48): build `0..=steps`
and trim the end with one discarded `next_back` call. -/
def new_inclusive_range (steps : Nat) : RangeInclusiveIter :=
  match (RangeInclusiveIter.mk 0 steps false).next_back with
  | some (_, r) => r
  | none => RangeInclusiveIter.mk 0 steps false

/-- `Space<I, R>` (src/space.rs): an `Interpolate` strategy plus the index
range `R`.  The strategy is modelled as a pure function `Nat → ℚ` — the trait's
`interpolate` method — covering the logarithmic, linear and other instances. -/
structure Space (R : Type) where
  interpolate : Nat → ℚ
  range : R

/-- `Space::next` at `R = Range<usize>`: `self.range.next().map(interpolate)`. -/
def Space.next (s : Space RangeIter) : Option (ℚ × Space RangeIter) :=
  match s.range.next with
  | some (x, r) => some (s.interpolate x, { s with range := r })
  | none => none

/-- `Space::next_back` at `R = Range<usize>` (src/space.rs lines 135-155). -/
def Space.next_back (s : Space RangeIter) : Option (ℚ × Space RangeIter) :=
  match s.range.next_back with
  | some (x, r) => some (s.interpolate x, { s with range := r })
  | none => none

/-- `Space::nth` at `R = Range<usize>` (src/space.rs lines 126-128):
`self.range.nth(n).map(interpolate)`. -/
def Space.nth (s : Space RangeIter) (n : Nat) : Option ℚ × Space RangeIter :=
  match s.range.nth n with
  | (some x, r) => (some (s.interpolate x), { s with range := r })
  | (none, r) => (none, { s with range := r })

/-- `ExactSizeIterator for Space` (src/space.rs lines 157-162): `range.len()`. -/
def Space.len (s : Space RangeIter) : Nat := s.range.len

/-- Collecting a `Space` over `Range<usize>`: `Space` maps each yielded index
through `interpolate`, so the collected list is the collected index list mapped. -/
def Space.toList (s : Space RangeIter) : List ℚ :=
  s.range.toList.map s.interpolate

/-- Collecting a `Space` over `Range<usize>` backward via `next_back`. -/
def Space.toListBack (s : Space RangeIter) : List ℚ :=
  s.range.toListBack.map s.interpolate

/-- `Space::next` at `R = RangeInclusive<usize>`. -/
def Space.nextIncl (s : Space RangeInclusiveIter) : Option (ℚ × Space RangeInclusiveIter) :=
  match s.range.next with
  | some (x, r) => some (s.interpolate x, { s with range := r })
  | none => none

/-- `Space::next_back` at `R = RangeInclusive<usize>`. -/
def Space.next_backIncl (s : Space RangeInclusiveIter) : Option (ℚ × Space RangeInclusiveIter) :=
  match s.range.next_back with
  | some (x, r) => some (s.interpolate x, { s with range := r })
  | none => none

/-- `ExactSizeIterator for Space` at `R = RangeInclusive<usize>`. -/
def Space.lenIncl (s : Space RangeInclusiveIter) : Nat := s.range.len

/-- Collecting a `Space` over `RangeInclusive<usize>` forward. -/
def Space.toListIncl (s : Space RangeInclusiveIter) : List ℚ :=
  s.range.toList.map s.interpolate

/-- Collecting a `Space` over `RangeInclusive<usize>` backward via `next_back`. -/
def Space.toListBackIncl (s : Space RangeInclusiveIter) : List ℚ :=
  s.range.toListBack.map s.interpolate

/-- Modelled from the spec: the per-axis `Lerp` that `src/gridspace.rs` imports
from `crate::linspace` is not part of this snapshot of the repository.  Spec
§4.1 defines the linear strategy by its closed-form parameters: a start value
and a step. -/
structure GridLerp where
  start : ℚ
  step : ℚ
deriving Repr, DecidableEq

/-- Modelled from the spec: `interpolate(i) = start + T::from(i) * step`
(spec §4.1, Evaluation). -/
def GridLerp.lerp (l : GridLerp) (i : Nat) : ℚ := l.start + (i : ℚ) * l.step

/-- Modelled from the spec: conversion of an exclusive per-axis range plus a
step count into the linear strategy, `step = (end - start) / steps` (spec §4.1,
Construction contract).  This is the `(start[i]..end[i], steps[i]).into()` call
of `src/gridspace.rs` line 55. -/
def GridLerp.ofRangeExclusive (start stop : ℚ) (steps : Nat) : GridLerp :=
  { start := start, step := (stop - start) / (steps : ℚ) }

/-- `GridSpace<T, N>` (src/gridspace.rs lines 123-128): per-axis lerps and step
counts, plus the flat cursors `x` (front) and `y` (back). -/
structure GridSpace where
  lerps : List GridLerp
  steps : List Nat
  x : Nat
  y : Nat
deriving Repr, DecidableEq

/-- The loop body of `get_indices` (src/gridspace.rs lines 130-137) processes
axes from the last index `j = N-1` down to `0`; this helper runs over the
reversed axis list in that order. -/
def get_indices_rev : Nat → List Nat → List Nat
  | _, [] => []
  | i, m :: rest => (i % m) :: get_indices_rev (i / m) rest

/-- `get_indices` (src/gridspace.rs lines 130-137): mixed-radix decomposition
of a flat index, the last axis being the fastest-varying digit. -/
def get_indices (i : Nat) (max : List Nat) : List Nat :=
  (get_indices_rev i max.reverse).reverse

/-- The value produced for flat index `i`:
`array_init(|j| lerps[j].lerp(n[j]))` with `n = get_indices(i, steps)`. -/
def GridSpace.interpolate (g : GridSpace) (i : Nat) : List ℚ :=
  (g.lerps.zip (get_indices i g.steps)).map (fun p => p.1.lerp p.2)

/-- `Iterator for GridSpace::next` (src/gridspace.rs lines 142-152). -/
def GridSpace.next (g : GridSpace) : Option (List ℚ × GridSpace) :=
  if g.x < g.y then some (g.interpolate g.x, { g with x := g.x + 1 }) else none

/-- `DoubleEndedIterator for GridSpace::next_back` (src/gridspace.rs lines
197-209). -/
def GridSpace.next_back (g : GridSpace) : Option (List ℚ × GridSpace) :=
  if g.x < g.y then some (g.interpolate (g.y - 1), { g with y := g.y - 1 }) else none

/-- `GridSpace::nth` (src/gridspace.rs lines 180-189), verbatim: note that the
guard is `self.y - self.x < n`, not `<= n`.  `usize` subtraction agrees with
truncated `ℕ` subtraction whenever the cursor invariant `x ≤ y` holds. -/
def GridSpace.nth (g : GridSpace) (n : Nat) : Option (List ℚ) × GridSpace :=
  if g.y - g.x < n then (none, { g with x := g.y })
  else (some (g.interpolate (g.x + n)), { g with x := g.x + n + 1 })

/-- `ExactSizeIterator for GridSpace::len` (src/gridspace.rs lines 211-216):
`self.y - self.x`.  In Rust this `usize` subtraction panics when `x > y`
(which the `nth` bug can produce); `ℕ` subtraction truncates to `0` there. -/
def GridSpace.len (g : GridSpace) : Nat := g.y - g.x

/-- `Iterator::count for GridSpace` (src/gridspace.rs lines 154-159): `len()`. -/
def GridSpace.count (g : GridSpace) : Nat := g.len

/-- `IntoGridSpace for Range<[T; N]>::into_grid_space` (src/gridspace.rs lines
51-69): per-axis lerps from the exclusive ranges, `x = 0`, and
`y = steps[0] * steps[1] * ... * steps[N-1]` computed once at construction
(the source reads `steps[0]`, so it requires `N ≥ 1`; `List.prod` agrees with
the source's fold for every `N ≥ 1`). -/
def into_grid_space_exclusive (axes : List (ℚ × ℚ × Nat)) : GridSpace :=
  { lerps := axes.map (fun a => GridLerp.ofRangeExclusive a.1 a.2.1 a.2.2)
    steps := axes.map (fun a => a.2.2)
    x := 0
    y := (axes.map (fun a => a.2.2)).prod }

/-- Collecting a `GridSpace` forward: repeated `next` until `None`; the `if` is
`next`'s own test inlined. -/
def GridSpace.toList (g : GridSpace) : List (List ℚ) :=
  if _h : g.x < g.y then g.interpolate g.x :: GridSpace.toList { g with x := g.x + 1 }
  else []
termination_by g.y - g.x
decreasing_by omega

/-- Collecting a `GridSpace` backward: repeated `next_back` until `None`; the
`if` is `next_back`'s own test inlined. -/
def GridSpace.toListBack (g : GridSpace) : List (List ℚ) :=
  if _h : g.x < g.y then g.interpolate (g.y - 1) :: GridSpace.toListBack { g with y := g.y - 1 }
  else []
termination_by g.y - g.x
decreasing_by omega

theorem GridSpace.toList_range_map (g : GridSpace) :
    g.toList = (List.range' g.x (g.y - g.x)).map g.interpolate := by
  rw [GridSpace.toList]
  split
  · rename_i h
    rw [GridSpace.toList_range_map { g with x := g.x + 1 }]
    have h1 : g.y - g.x = (g.y - (g.x + 1)) + 1 := by omega
    rw [h1, List.range'_succ]
    rfl
  · rename_i h
    have : g.y - g.x = 0 := by omega
    simp [this]
termination_by g.y - g.x
decreasing_by omega

theorem GridSpace.toListBack_range_map (g : GridSpace) :
    g.toListBack = ((List.range' g.x (g.y - g.x)).map g.interpolate).reverse := by
  rw [GridSpace.toListBack]
  split
  · rename_i h
    rw [GridSpace.toListBack_range_map { g with y := g.y - 1 }]
    have h1 : g.y - g.x = (g.y - 1 - g.x) + 1 := by omega
    rw [h1, List.range'_concat]
    have h2 : g.x + (g.y - 1 - g.x) = g.y - 1 := by omega
    simp [h2]
    intro a _ _
    rfl
  · rename_i h
    have : g.y - g.x = 0 := by omega
    simp [this]
termination_by g.y - g.x
decreasing_by omega

/-- C4: for every space — `Space` over an exclusive index range, `Space` over
an inclusive index range (the linear and logarithmic instances), and the
const-generic `GridSpace` — collecting backward via `next_back` yields exactly
the reverse of collecting forward via `next`. -/
theorem backward_iteration_reverses_forward :
    (∀ (f : Nat → ℚ) (r : RangeIter),
        Space.toListBack ⟨f, r⟩ = (Space.toList ⟨f, r⟩).reverse) ∧
    (∀ (f : Nat → ℚ) (r : RangeInclusiveIter),
        Space.toListBackIncl ⟨f, r⟩ = (Space.toListIncl ⟨f, r⟩).reverse) ∧
    (∀ g : GridSpace, g.toListBack = g.toList.reverse) := by
  refine ⟨?_, ?_, ?_⟩
  · intro f r
    unfold Space.toListBack Space.toList
    rw [RangeIter.toListBack_as_reverse_range, RangeIter.toList_as_range, List.map_reverse]
  · intro f r
    unfold Space.toListBackIncl Space.toListIncl
    rw [RangeInclusiveIter.toListBack_closed_form, RangeInclusiveIter.toList_closed_form]
    cases h : r.isEmpty <;> simp [List.map_reverse]
  · intro g
    rw [GridSpace.toListBack_range_map, GridSpace.toList_range_map]

/-- C2 (code bug): on the 2×4 grid space `len() = 8`, yet `nth(8)` — the
argument exactly equal to `len()` — returns `Some` of the wrap-around value
`interpolate(8) = [0, 0]` instead of returning `None` and exhausting:
`GridSpace::nth` guards with `y - x < n` where the `Iterator::nth` contract
(and `Space::nth`, which delegates to the std range) yields only when
`n < len`. -/
theorem grid_space_nth_at_len_yields_spurious_element :
    (into_grid_space_exclusive [(0, 1, 2), (0, 2, 4)]).len = 8 ∧
    ((into_grid_space_exclusive [(0, 1, 2), (0, 2, 4)]).nth 8).1 = some [0, 0] := by
  constructor
  · rfl
  · norm_num [into_grid_space_exclusive, GridSpace.nth, GridSpace.interpolate,
      get_indices, get_indices_rev, GridLerp.ofRangeExclusive, GridLerp.lerp]

/-- C3 (code bug): the same `nth(len())` call drives the front cursor past the
back cursor: from the freshly constructed state `x = 0 ≤ y = 8`, `nth(8)`
leaves `x = 9 > y = 8`, violating the invariant `0 ≤ lo ≤ hi ≤ total_steps`
(after which the Rust `len()` subtraction `y - x` underflows). -/
theorem grid_space_nth_at_len_breaks_cursor_invariant :
    ((into_grid_space_exclusive [(0, 1, 2), (0, 2, 4)]).nth 8).2.x = 9 ∧
    ((into_grid_space_exclusive [(0, 1, 2), (0, 2, 4)]).nth 8).2.y = 8 ∧
    ¬ ((into_grid_space_exclusive [(0, 1, 2), (0, 2, 4)]).nth 8).2.x ≤
        ((into_grid_space_exclusive [(0, 1, 2), (0, 2, 4)]).nth 8).2.y := by
  refine ⟨rfl, rfl, by decide⟩

/-- C6: `grid_space([0,0]..[1,2], [2,4])` yields exactly the 8 pairs — every
combination of the 2 axis-0 values with the 4 axis-1 values, each exactly once
— in row-major order with axis 1 fastest-varying; backward iteration via
`next_back` is exactly the reverse (the same flat-index decomposition at
decreasing indices); and the back cursor is the product `2 * 4` of the per-axis
step counts, set once at construction, so `len() = 8`. -/
theorem grid_space_2x4_rowmajor_complete :
    (into_grid_space_exclusive [(0, 1, 2), (0, 2, 4)]).toList =
      [[0, 0], [0, 1/2], [0, 1], [0, 3/2], [1/2, 0], [1/2, 1/2], [1/2, 1], [1/2, 3/2]] ∧
    (into_grid_space_exclusive [(0, 1, 2), (0, 2, 4)]).toListBack =
      [[1/2, 3/2], [1/2, 1], [1/2, 1/2], [1/2, 0], [0, 3/2], [0, 1], [0, 1/2], [0, 0]] ∧
    (into_grid_space_exclusive [(0, 1, 2), (0, 2, 4)]).y = [2, 4].prod ∧
    (into_grid_space_exclusive [(0, 1, 2), (0, 2, 4)]).len = 2 * 4 := by
  refine ⟨?_, ?_, rfl, rfl⟩
  · rw [GridSpace.toList_range_map]
    norm_num [into_grid_space_exclusive, List.range', GridSpace.interpolate,
      get_indices, get_indices_rev, GridLerp.ofRangeExclusive, GridLerp.lerp]
  · rw [GridSpace.toListBack_range_map]
    norm_num [into_grid_space_exclusive, List.range', GridSpace.interpolate,
      get_indices, get_indices_rev, GridLerp.ofRangeExclusive, GridLerp.lerp]

/-- C5 (counterexample): `lin_space(20..=21, 1)` — allowed by the claim's
`n >= 1` — maps its single index `0` through a lerp whose index interval is
`0..=0`, i.e. computes `(20*(0-0) + 21*(0-0)) / (0-0)`: a `0/0` division,
`NaN` in the source's floats and `0` in the `ℚ` model — in neither case the
declared end `21`. -/
theorem lin_space_inclusive_one_step_last_is_not_end :
    Option.map LinSpace.last (into_lin_space_inclusive 20 21 1) = some (some 0) ∧
    (0 : ℚ) ≠ 21 := by
  constructor
  · norm_num [into_lin_space_inclusive, LinSpace.new, LinSpace.last, RangeIter.last,
      RangeIter.toList, Lerp.lerp]
  · norm_num

/-- C5 (amended): for the inclusive linear space the last yielded value equals
the declared end `b` exactly when `n ≥ 2` (for `n = 1` the lerp divides `0/0`);
for the exclusive linear space no yielded value equals `b` when `a ≠ b`, and
interpolating the one-past-last index `n` yields exactly `b` when `n ≥ 1`. -/
theorem lin_space_endpoint_exactness (a b : ℚ) (n : Nat) :
    (2 ≤ n → Option.map LinSpace.last (into_lin_space_inclusive a b n) = some (some b)) ∧
    (a ≠ b → ∀ v ∈ (into_lin_space_exclusive a b n).toList, v ≠ b) ∧
    (1 ≤ n → (into_lin_space_exclusive a b n).lerp.lerp ((n : Nat) : ℚ) = b) := by
  refine ⟨?_, ?_, ?_⟩
  · intro hn2
    have hne : n ≠ 0 := by omega
    have hm : ((n - 1 : Nat) : ℚ) ≠ 0 := Nat.cast_ne_zero.mpr (by omega)
    simp only [into_lin_space_inclusive, hne, if_false, Option.map_some']
    unfold LinSpace.last LinSpace.new RangeIter.last
    have h0n : 0 < n := by omega
    simp only [h0n, if_true, Option.map_some']
    congr 1
    unfold Lerp.lerp
    simp only
    rw [sub_self, mul_zero, zero_add, mul_div_assoc, Nat.cast_zero, sub_zero, div_self hm,
      mul_one]
  · intro hab v hv
    rw [into_lin_space_exclusive_toList] at hv
    simp only [List.mem_map] at hv
    obtain ⟨i, hi, rfl⟩ := hv
    have hin : i < n := by
      have := List.mem_range'_1.mp hi
      omega
    have hn : (n : ℚ) ≠ 0 := Nat.cast_ne_zero.mpr (by omega)
    unfold Lerp.lerp
    simp only [Nat.cast_zero, sub_zero]
    rw [Ne, div_eq_iff hn]
    intro heq
    have h2 : (a - b) * ((n : ℚ) - i) = 0 := by linear_combination heq
    rcases mul_eq_zero.mp h2 with h3 | h3
    · exact hab (sub_eq_zero.mp h3)
    · have : (i : ℚ) < (n : ℚ) := by exact_mod_cast hin
      have : (n : ℚ) - i ≠ 0 := sub_ne_zero.mpr (ne_of_gt this)
      exact this h3
  · intro hn1
    have hn : (n : ℚ) ≠ 0 := Nat.cast_ne_zero.mpr (by omega)
    unfold into_lin_space_exclusive LinSpace.new Lerp.lerp
    simp only [Nat.cast_zero, sub_zero, sub_self, mul_zero, zero_add]
    rw [mul_div_assoc, div_self hn, mul_one]

/-- Witness for C5 at `a = 0`, `b = 1`, `n = 2`. -/
theorem lin_space_endpoint_exactness_witness :
    (Option.map LinSpace.last (into_lin_space_inclusive 0 1 2) = some (some 1)) ∧
    (∀ v ∈ (into_lin_space_exclusive 0 1 2).toList, v ≠ 1) ∧
    (into_lin_space_exclusive 0 1 2).lerp.lerp ((2 : Nat) : ℚ) = 1 :=
  ⟨(lin_space_endpoint_exactness 0 1 2).1 (by norm_num),
   (lin_space_endpoint_exactness 0 1 2).2.1 (by norm_num),
   (lin_space_endpoint_exactness 0 1 2).2.2 (by norm_num)⟩

/-- `Arange<F>` (src/arange.rs lines 5-11): start, end, the fixed step size,
and the running step counter (itself stored as an `F`).  The source field `end`
is a Lean keyword and is called `stop` here. -/
structure Arange where
  start : ℚ
  stop : ℚ
  step_size : ℚ
  step : ℚ
deriving Repr, DecidableEq

/-- `Arange::new` (src/arange.rs lines 42-51): store the bounds and step size
and zero the counter.  Construction is total — nothing is validated. -/
def Arange.new (range_start range_stop step : ℚ) : Arange :=
  { start := range_start, stop := range_stop, step_size := step, step := 0 }

/-- `Iterator for Arange::next` (src/arange.rs lines 58-66):
`x = start + step * step_size`; yield `x` and bump the counter while
`x < end`. -/
def Arange.next (a : Arange) : Option (ℚ × Arange) :=
  let x := a.start + a.step * a.step_size
  if x < a.stop then some (x, { a with step := a.step + 1 }) else none

/-- `Arange::size_hint` (src/arange.rs lines 68-74):
`ceil((end - (start + step * step_size)) / step_size)` converted to `usize`;
the conversion fails on a negative value (the model of float `to_usize`),
giving the `(0, None)` fallback. -/
def Arange.size_hint (a : Arange) : Nat × Option Nat :=
  let q : ℤ := ⌈(a.stop - (a.start + a.step * a.step_size)) / a.step_size⌉
  if 0 ≤ q then (q.toNat, some q.toNat) else (0, none)

/-- The list of the first `fuel` values produced by repeatedly calling
`Arange::next`. -/
def Arange.toList (a : Arange) : Nat → List ℚ
  | 0 => []
  | fuel + 1 =>
    match a.next with
    | some (x, a2) => x :: a2.toList fuel
    | none => []

theorem Arange.size_hint_fst (a : Arange) :
    (a.size_hint).1 = (⌈(a.stop - (a.start + a.step * a.step_size)) / a.step_size⌉).toNat := by
  unfold Arange.size_hint
  dsimp only
  split
  · rfl
  · rename_i hq
    simp only
    omega

theorem Arange.next_none_iff (a : Arange) (h : 0 < a.step_size) :
    a.next = none ↔ (a.size_hint).1 = 0 := by
  rw [Arange.size_hint_fst]
  unfold Arange.next
  simp only
  constructor
  · intro hn
    have hle : a.stop ≤ a.start + a.step * a.step_size := by
      by_contra hc
      simp [lt_of_not_le hc] at hn
    have h1 : (a.stop - (a.start + a.step * a.step_size)) / a.step_size ≤ 0 := by
      apply div_nonpos_of_nonpos_of_nonneg
      · linarith
      · linarith
    have h2 : (⌈(a.stop - (a.start + a.step * a.step_size)) / a.step_size⌉ : ℤ) ≤ 0 := by
      exact_mod_cast Int.ceil_le.mpr (by exact_mod_cast h1)
    omega
  · intro h0
    have h2 : (⌈(a.stop - (a.start + a.step * a.step_size)) / a.step_size⌉ : ℤ) ≤ 0 := by omega
    have h1 : (a.stop - (a.start + a.step * a.step_size)) / a.step_size ≤ 0 := by
      have := Int.ceil_le.mp h2
      exact_mod_cast this
    have hle : a.stop - (a.start + a.step * a.step_size) ≤ 0 := by
      by_contra hc
      have hpos : 0 < (a.stop - (a.start + a.step * a.step_size)) / a.step_size :=
        div_pos (by linarith) h
      linarith
    simp only [ite_eq_right_iff]
    intro hlt
    linarith

theorem Arange.next_some_hint (a : Arange) (x : ℚ) (a2 : Arange) (h : 0 < a.step_size)
    (hs : a.next = some (x, a2)) :
    (a2.size_hint).1 = (a.size_hint).1 - 1 ∧ 1 ≤ (a.size_hint).1 ∧
      a2.step_size = a.step_size := by
  unfold Arange.next at hs
  simp only at hs
  split at hs
  case isFalse => exact absurd hs (by simp)
  case isTrue hlt =>
    injection hs with hs
    injection hs with hx ha2
    subst ha2
    refine ⟨?_, ?_, rfl⟩
    · rw [Arange.size_hint_fst, Arange.size_hint_fst]
      simp only
      have hexp : a.stop - (a.start + (a.step + 1) * a.step_size) =
          (a.stop - (a.start + a.step * a.step_size)) - a.step_size := by ring
      rw [hexp, sub_div, div_self (ne_of_gt h), Int.ceil_sub_one]
      have hq1 : (1 : ℤ) ≤ ⌈(a.stop - (a.start + a.step * a.step_size)) / a.step_size⌉ := by
        have hpos : 0 < (a.stop - (a.start + a.step * a.step_size)) / a.step_size :=
          div_pos (by linarith) h
        exact Int.ceil_pos.mpr hpos
      omega
    · rw [Arange.size_hint_fst]
      have hq1 : (1 : ℤ) ≤ ⌈(a.stop - (a.start + a.step * a.step_size)) / a.step_size⌉ := by
        have hpos : 0 < (a.stop - (a.start + a.step * a.step_size)) / a.step_size :=
          div_pos (by linarith) h
        exact Int.ceil_pos.mpr hpos
      omega

theorem Arange.toList_length (a : Arange) (fuel : Nat) (h : 0 < a.step_size) :
    (a.toList fuel).length = min fuel (a.size_hint).1 := by
  induction fuel generalizing a with
  | zero => simp [Arange.toList]
  | succ fuel ih =>
    cases hs : a.next with
    | none =>
      have h0 := (Arange.next_none_iff a h).mp hs
      simp [Arange.toList, hs, h0]
    | some p =>
      obtain ⟨x, a2⟩ := p
      obtain ⟨h1, h2, h3⟩ := Arange.next_some_hint a x a2 h hs
      have ih2 := ih a2 (by rw [h3]; exact h)
      simp only [Arange.toList, hs, List.length_cons, ih2]
      omega

/-- C7: `arange(0.0..2.0, 0.5)` yields exactly `[0, 1/2, 1, 3/2]` and
`arange(0.0..0.55, 0.1)` yields exactly 6 elements; in general, for a positive
step size the number of elements produced (up to any fuel bound) is the ceiling
division `ceil((end - pos) / step_size)` reported by `size_hint`. -/
theorem arange_count_is_ceiling_division :
    (Arange.new 0 2 (1/2)).toList 5 = [0, 1/2, 1, 3/2] ∧
    ((Arange.new 0 (11/20) (1/10)).toList 7).length = 6 ∧
    ((Arange.new 0 2 (1/2)).size_hint).1 = 4 ∧
    ((Arange.new 0 (11/20) (1/10)).size_hint).1 = 6 ∧
    (∀ (a : Arange) (fuel : Nat), 0 < a.step_size →
      (a.toList fuel).length = min fuel (a.size_hint).1) := by
  refine ⟨?_, ?_, ?_, ?_, fun a fuel h => Arange.toList_length a fuel h⟩
  · norm_num [Arange.toList, Arange.new, Arange.next]
  · norm_num [Arange.toList, Arange.new, Arange.next]
  · rw [Arange.size_hint_fst]
    norm_num [Arange.new]
    decide
  · rw [Arange.size_hint_fst]
    norm_num [Arange.new]
    have h1 : (⌈(11 : ℚ) / 2⌉ : ℤ) = 6 := by
      rw [Int.ceil_eq_iff]
      norm_num
    rw [h1]
    decide

/-- Witness for C7's general clause at `Arange::new(0.0..1.0, 1.0)`, fuel 3. -/
theorem arange_count_is_ceiling_division_witness :
    0 < (1 : ℚ) ∧ ((Arange.new 0 1 1).toList 3).length = min 3 ((Arange.new 0 1 1).size_hint).1 :=
  ⟨by norm_num,
   arange_count_is_ceiling_division.2.2.2.2 (Arange.new 0 1 1) 3 (by norm_num [Arange.new])⟩

/-- `LogarithmicInterpolation<T>` (src/logspace.rs lines 36-40). -/
structure LogarithmicInterpolation where
  start : ℚ
  step : ℚ
deriving Repr, DecidableEq

/-- `Interpolate for LogarithmicInterpolation` (src/logspace.rs lines 54-60):
`start * step.powi(x as i32)` — integer exponentiation by the index. -/
def LogarithmicInterpolation.interpolate (l : LogarithmicInterpolation) (x : Nat) : ℚ :=
  l.start * l.step ^ x

/-- `ToLogSpace for RangeInclusive<T>::into_log_space` (src/logspace.rs lines
73-82): `step = (end/start).powf((steps - 1).recip())`, range `0..=steps`
trimmed by one `next_back`.  The real-exponent `powf` comes from the external
`num_traits` collaborator and is passed in as `pf`; `steps - 1` is a `usize`
subtraction that panics on underflow when `steps == 0`, modelled as `none`. -/
def into_log_space_inclusive (pf : ℚ → ℚ → ℚ) (start stop : ℚ) (steps : Nat) :
    Option (Space RangeInclusiveIter) :=
  if steps = 0 then none
  else
    some { interpolate := fun x =>
             LogarithmicInterpolation.interpolate
               { start := start, step := pf (stop / start) (((steps - 1 : Nat) : ℚ))⁻¹ } x
           range := new_inclusive_range steps }

/-- C8 (counterexample): `Arange::new(0.0..1.0, 0.0)` — a zero step size, which
the claim says must make construction fail — constructs successfully, and its
first `next` call yields `start = 0` (as would every later call). -/
theorem arange_zero_step_constructs_and_yields :
    (Arange.new 0 1 0).next =
      some (0, { start := 0, stop := 1, step_size := 0, step := 1 }) := by
  norm_num [Arange.new, Arange.next]

/-- C8 (amended): the inclusive linear and logarithmic constructions fail fast
at construction when `steps == 0` (their `steps - 1` divisor underflows); the
fixed-step `Arange` construction however never fails: `Arange::new` is total,
nothing about the step is validated, and with a zero step size the iterator
yields `start` whenever `start < end` instead of failing. -/
theorem construction_failure_policy :
    (∀ a b : ℚ, into_lin_space_inclusive a b 0 = none) ∧
    (∀ (pf : ℚ → ℚ → ℚ) (a b : ℚ), into_log_space_inclusive pf a b 0 = none) ∧
    (∀ s e st : ℚ, Arange.new s e st =
      { start := s, stop := e, step_size := st, step := 0 }) ∧
    (∀ s e : ℚ, s < e → (Arange.new s e 0).next =
      some (s, { start := s, stop := e, step_size := 0, step := 1 })) := by
  refine ⟨fun a b => rfl, fun pf a b => rfl, fun s e st => rfl, fun s e hse => ?_⟩
  simp [Arange.new, Arange.next, hse]

/-- Witness for C8's fourth clause at `start = 0`, `end = 1`. -/
theorem construction_failure_policy_witness :
    (0 : ℚ) < 1 ∧ (Arange.new 0 1 0).next =
      some (0, { start := 0, stop := 1, step_size := 0, step := 1 }) :=
  ⟨by norm_num, construction_failure_policy.2.2.2 0 1 (by norm_num)⟩

/-- Rust `Option::ok_or(())` as used by `Sum2 for Option<T>`
(src/accum/result.rs line 30): `Some v ↦ Ok v`, `None ↦ Err(())`. -/
def ok_or {α : Type} : Option α → Except Unit α
  | some v => Except.ok v
  | none => Except.error ()

/-- Rust `Result::ok` as used by `Sum2 for Option<T>` (src/accum/result.rs line
30): keep the success value, drop the error. -/
def result_ok {ε α : Type} : Except ε α → Option α
  | Except.ok x => some x
  | Except.error _ => none

/-- `ResultShunt::fold` (src/accum/result.rs lines 93-111): fold the success
values, and on the first error record it and `break`.  Returns the accumulator
together with the recorded error. -/
def resultShuntFold {ε α β : Type} : List (Except ε α) → β → (β → α → β) → β × Option ε
  | [], accum, _ => (accum, none)
  | Except.ok x :: rest, accum, f => resultShuntFold rest (f accum x) f
  | Except.error e :: _, accum, _ => (accum, some e)

/-- The elements the `for x in self.iter` loop of `ResultShunt::fold` actually
consumes: everything up to and including the first error — the `break` leaves
the rest unconsumed. -/
def resultShuntConsumed {ε α : Type} : List (Except ε α) → List (Except ε α)
  | [] => []
  | Except.ok x :: rest => Except.ok x :: resultShuntConsumed rest
  | Except.error e :: _ => [Except.error e]

/-- `Sum2` for a plain integer element type (src/accum/num.rs lines 6-11):
`fold(0, |a, b| a + b)`. -/
def sum2Int (l : List ℤ) : ℤ := l.foldl (fun a b => a + b) 0

/-- `Sum2 for Result<T, E>` (src/accum/result.rs lines 4-12) at `T = ℤ`:
`process_results(iter, |i| T::sum2(i))` — run `ResultShunt::fold` and then
`error.map(|()| value)`. -/
def sum2Result {ε : Type} (l : List (Except ε ℤ)) : Except ε ℤ :=
  match resultShuntFold l 0 (fun a b => a + b) with
  | (accum, none) => Except.ok accum
  | (_, some e) => Except.error e

/-- `Sum2 for Option<T>` (src/accum/result.rs lines 24-32) at `T = ℤ`:
`iter.map(|x| x.ok_or(())).sum2().ok()`. -/
def sum2Option (l : List (Option ℤ)) : Option ℤ :=
  result_ok (sum2Result (l.map ok_or))

theorem resultShuntFold_ok_append {ε α β : Type} (l : List α) (rest : List (Except ε α))
    (init : β) (f : β → α → β) :
    resultShuntFold (l.map Except.ok ++ rest) init f =
      resultShuntFold rest (l.foldl f init) f := by
  induction l generalizing init with
  | nil => rfl
  | cons x xs ih => simp [resultShuntFold, ih]

theorem resultShuntConsumed_ok_append {ε α : Type} (l : List α) (rest : List (Except ε α)) :
    resultShuntConsumed (l.map Except.ok ++ rest) =
      l.map Except.ok ++ resultShuntConsumed rest := by
  induction l with
  | nil => rfl
  | cons x xs ih => simp [resultShuntConsumed, ih]

/-- C9: summing optional elements yields `none` as soon as one element is
`none`, with nothing past the first `none` consumed; summing fallible elements
stops at the first error and returns exactly that error, and otherwise returns
the sum of all success values — all in the single `ResultShunt::fold` pass. -/
theorem sum2_short_circuits {ε : Type} :
    (∀ l : List ℤ, sum2Option (l.map some) = some (sum2Int l)) ∧
    (∀ (pre : List ℤ) (post : List (Option ℤ)),
        sum2Option (pre.map some ++ none :: post) = none ∧
        resultShuntConsumed ((pre.map some ++ none :: post).map ok_or) =
          pre.map (fun v => Except.ok v) ++ [Except.error ()]) ∧
    (∀ (pre : List ℤ) (e : ε) (post : List (Except ε ℤ)),
        sum2Result (pre.map Except.ok ++ Except.error e :: post) = Except.error e ∧
        resultShuntConsumed (pre.map Except.ok ++ Except.error e :: post) =
          pre.map Except.ok ++ [Except.error e]) ∧
    (∀ l : List ℤ, sum2Result (l.map Except.ok : List (Except ε ℤ)) = Except.ok (sum2Int l)) := by
  have hmap : ∀ (l : List ℤ), (l.map some).map ok_or = l.map Except.ok := by
    intro l
    rw [List.map_map]
    rfl
  refine ⟨?_, ?_, ?_, ?_⟩
  · intro l
    unfold sum2Option sum2Result
    rw [hmap]
    have h1 := resultShuntFold_ok_append (ε := Unit) l [] 0 (fun a b => a + b)
    simp only [List.append_nil] at h1
    rw [h1]
    rfl
  · intro pre post
    constructor
    · unfold sum2Option sum2Result
      rw [List.map_append, hmap]
      have h1 := resultShuntFold_ok_append (ε := Unit) pre ((none :: post).map ok_or) 0
        (fun a b => a + b)
      rw [h1]
      rfl
    · rw [List.map_append, hmap, resultShuntConsumed_ok_append]
      rfl
  · intro pre e post
    constructor
    · unfold sum2Result
      rw [resultShuntFold_ok_append]
      rfl
    · rw [resultShuntConsumed_ok_append]
      rfl
  · intro l
    unfold sum2Result
    have h1 := resultShuntFold_ok_append (ε := ε) l [] 0 (fun a b => a + b)
    simp only [List.append_nil] at h1
    rw [h1]
    rfl

/-- `Step for $u_narrower::steps_between` (src/step.rs lines 31-40) for an
unsigned integer type narrower than or as wide as `usize` (u8, u16, u32, u64,
usize on the 64-bit target): when `start <= end` the difference fits `usize`
exactly. -/
def uStepsBetween (a b : Nat) : Option Nat :=
  if a ≤ b then some (b - a) else none

/-- `Step for $u_narrower::forward` (src/step.rs lines 42-48) at width `w`:
`Self::try_from(n)` succeeds iff `n < 2^w`, then `checked_add` succeeds iff
`a + n < 2^w`. -/
def uForward (w : Nat) (a n : Nat) : Option Nat :=
  if n < 2 ^ w then (if a + n < 2 ^ w then some (a + n) else none) else none

/-- Two's-complement wrap of an integer into the `w`-bit signed range
`[-2^(w-1), 2^(w-1))`. -/
def wrapS (w : Nat) (x : ℤ) : ℤ := (x + 2 ^ (w - 1)) % 2 ^ w - 2 ^ (w - 1)

/-- `Step for $i_narrower::steps_between` (src/step.rs lines 52-65): for
`start <= end` the difference is computed by `isize` wrapping subtraction and
reinterpreted as `usize`, which (as the source comment explains) recovers the
exact non-negative difference. -/
def iStepsBetween (a b : ℤ) : Option Nat :=
  if a ≤ b then some (b - a).toNat else none

/-- `Step for $i_narrower::forward` (src/step.rs lines 67-86) at width `w`:
`$u_narrower::try_from(n)` succeeds iff `n < 2^w`; `n as Self` reinterprets the
`w`-bit unsigned value as signed (`wrapS w n`); `wrapping_add` wraps the sum;
the result is kept only when it did not move below `start`. -/
def iForward (w : Nat) (a : ℤ) (n : Nat) : Option ℤ :=
  if n < 2 ^ w then
    (if a ≤ wrapS w (a + wrapS w (n : ℤ)) then some (wrapS w (a + wrapS w (n : ℤ))) else none)
  else none

/-- `Step for u128::steps_between` (src/step.rs lines 92-100):
`usize::try_from(end - start)` succeeds iff the difference is below `2^64`. -/
def u128StepsBetween (a b : Nat) : Option Nat :=
  if a ≤ b then (if b - a < 2 ^ 64 then some (b - a) else none) else none

/-- `Step for u128::forward` (src/step.rs lines 102-105): `checked_add(n as
u128)` (`usize` always fits `u128`). -/
def u128Forward (a n : Nat) : Option Nat :=
  if a + n < 2 ^ 128 then some (a + n) else none

/-- `Step for i128::steps_between` (src/step.rs lines 108-122): `checked_sub`
fails when the difference overflows `i128`, then `usize::try_from` fails at
`2^64`. -/
def i128StepsBetween (a b : ℤ) : Option Nat :=
  if a ≤ b then
    if b - a ≤ 2 ^ 127 - 1 then
      (if b - a < 2 ^ 64 then some (b - a).toNat else none)
    else none
  else none

/-- `Step for i128::forward` (src/step.rs lines 124-127): `checked_add(n as
i128)`. -/
def i128Forward (a : ℤ) (n : Nat) : Option ℤ :=
  if -(2 ^ 127) ≤ a + n ∧ a + n ≤ 2 ^ 127 - 1 then some (a + n) else none

/-- Unicode scalar values as `u32` code points: below the surrogate range, or
between it and `char::MAX`. -/
def isScalar (c : Nat) : Prop := c < 0xD800 ∨ (0xE000 ≤ c ∧ c < 0x110000)

/-- `Step for char::steps_between` (src/step.rs lines 151-166): the `u32`
difference, minus the `0x800`-wide surrogate gap when the range crosses it
(`usize::try_from` of a `u32` always succeeds on the 64-bit target). -/
def charStepsBetween (a b : Nat) : Option Nat :=
  if a ≤ b then
    (if a < 0xD800 ∧ 0xE000 ≤ b then some (b - a - 0x800) else some (b - a))
  else none

/-- `Step for char::forward` (src/step.rs lines 168-182): step the code point
as a `u32` (the `?` operators become `Option.bind`), jump over the surrogate
range when landing in it, and keep the result only when at most `char::MAX`. -/
def charForward (a n : Nat) : Option Nat :=
  (uForward 32 a n).bind (fun res =>
    (if a < 0xD800 ∧ 0xD800 ≤ res then uForward 32 res 0x800 else some res).bind (fun res2 =>
      if res2 ≤ 0x10FFFF then some res2 else none))

theorem wrapS_modeq (w : Nat) (x : ℤ) : wrapS w x ≡ x [ZMOD ((2 : ℤ) ^ w)] := by
  unfold wrapS
  have h1 : (x + 2 ^ (w - 1)) % 2 ^ w ≡ x + 2 ^ (w - 1) [ZMOD ((2 : ℤ) ^ w)] :=
    Int.emod_emod_of_dvd _ dvd_rfl
  have h2 := h1.sub_right ((2 : ℤ) ^ (w - 1))
  simpa using h2

theorem wrapS_eq_of_modeq (w : Nat) (hw : 0 < w) (x y : ℤ)
    (h : x ≡ y [ZMOD ((2 : ℤ) ^ w)]) (h1 : -(2 ^ (w - 1)) ≤ y) (h2 : y < 2 ^ (w - 1)) :
    wrapS w x = y := by
  unfold wrapS
  have hsum : (2 : ℤ) ^ w = 2 ^ (w - 1) * 2 := by
    rw [← pow_succ]
    congr 1
    omega
  have h3 : (x + 2 ^ (w - 1)) % 2 ^ w = (y + 2 ^ (w - 1)) % 2 ^ w :=
    h.add_right ((2 : ℤ) ^ (w - 1))
  rw [h3, Int.emod_eq_of_lt (by linarith) (by rw [hsum]; linarith)]
  omega

theorem uStep_roundtrip (w a b n : Nat) (hb : b < 2 ^ w) :
    (uStepsBetween a b = some n → uForward w a n = some b) ∧
    (b < a → uStepsBetween a b = none) ∧
    (uStepsBetween a b = some 0 ↔ a = b) := by
  unfold uStepsBetween uForward
  by_cases hab : a ≤ b
  · rw [if_pos hab]
    refine ⟨?_, ?_, ?_⟩
    · intro hs
      injection hs with hn
      subst hn
      rw [if_pos (by omega), if_pos (by omega)]
      congr 1
      omega
    · intro hba
      exact absurd hab (by omega)
    · constructor
      · intro h0
        injection h0 with h0
        omega
      · intro heq
        subst heq
        simp
  · rw [if_neg hab]
    exact ⟨fun hs => Option.noConfusion hs, fun _ => rfl,
      ⟨fun h => Option.noConfusion h, fun heq => absurd (le_of_eq heq) hab⟩⟩

theorem iStep_roundtrip (w : Nat) (a b : ℤ) (n : Nat) (hw : 0 < w)
    (ha1 : -(2 ^ (w - 1)) ≤ a) (hb1 : -(2 ^ (w - 1)) ≤ b) (hb2 : b < 2 ^ (w - 1)) :
    (iStepsBetween a b = some n → iForward w a n = some b) ∧
    (b < a → iStepsBetween a b = none) ∧
    (iStepsBetween a b = some 0 ↔ a = b) := by
  have hsum : (2 : ℤ) ^ w = 2 ^ (w - 1) * 2 := by
    rw [← pow_succ]
    congr 1
    omega
  unfold iStepsBetween
  by_cases hab : a ≤ b
  · rw [if_pos hab]
    refine ⟨?_, ?_, ?_⟩
    · intro hs
      injection hs with hn
      subst hn
      unfold iForward
      have hcast : (((b - a).toNat : ℤ)) = b - a := Int.toNat_of_nonneg (by linarith)
      have hnw : (b - a).toNat < 2 ^ w := by
        have hz : b - a < (2 : ℤ) ^ w := by
          rw [hsum]
          linarith
        have hzc : ((2 ^ w : Nat) : ℤ) = (2 : ℤ) ^ w := by push_cast; ring
        omega
      rw [if_pos hnw]
      have hmod1 : wrapS w (((b - a).toNat : ℤ)) ≡ b - a [ZMOD ((2 : ℤ) ^ w)] := by
        rw [hcast]
        exact wrapS_modeq w (b - a)
      have hmod2 : a + wrapS w (((b - a).toNat : ℤ)) ≡ b [ZMOD ((2 : ℤ) ^ w)] := by
        have h5 := hmod1.add_left a
        have h6 : a + (b - a) = b := by ring
        rwa [h6] at h5
      have hwrap : wrapS w (a + wrapS w (((b - a).toNat : ℤ))) = b :=
        wrapS_eq_of_modeq w hw _ b hmod2 hb1 hb2
      rw [hwrap, if_pos hab]
    · intro hba
      exact absurd hab (by omega)
    · constructor
      · intro h0
        injection h0 with h0
        omega
      · intro heq
        subst heq
        simp
  · rw [if_neg hab]
    exact ⟨fun hs => Option.noConfusion hs, fun _ => rfl,
      ⟨fun h => Option.noConfusion h, fun heq => absurd (le_of_eq heq) hab⟩⟩

theorem u128Step_roundtrip (a b n : Nat) (hb : b < 2 ^ 128) :
    (u128StepsBetween a b = some n → u128Forward a n = some b) ∧
    (b < a → u128StepsBetween a b = none) ∧
    (u128StepsBetween a b = some 0 ↔ a = b) := by
  unfold u128StepsBetween u128Forward
  by_cases hab : a ≤ b
  · rw [if_pos hab]
    refine ⟨?_, ?_, ?_⟩
    · intro hs
      by_cases hd : b - a < 2 ^ 64
      · rw [if_pos hd] at hs
        injection hs with hn
        subst hn
        rw [if_pos (by omega)]
        congr 1
        omega
      · rw [if_neg hd] at hs
        exact Option.noConfusion hs
    · intro hba
      exact absurd hab (by omega)
    · by_cases hd : b - a < 2 ^ 64
      · rw [if_pos hd]
        constructor
        · intro h0
          injection h0 with h0
          omega
        · intro heq
          subst heq
          simp
      · rw [if_neg hd]
        constructor
        · intro h
          exact Option.noConfusion h
        · intro heq
          exfalso
          omega
  · rw [if_neg hab]
    exact ⟨fun hs => Option.noConfusion hs, fun _ => rfl,
      ⟨fun h => Option.noConfusion h, fun heq => absurd (le_of_eq heq) hab⟩⟩

theorem i128Step_roundtrip (a b : ℤ) (n : Nat) (ha1 : -(2 ^ 127) ≤ a)
    (hb2 : b ≤ 2 ^ 127 - 1) :
    (i128StepsBetween a b = some n → i128Forward a n = some b) ∧
    (b < a → i128StepsBetween a b = none) ∧
    (i128StepsBetween a b = some 0 ↔ a = b) := by
  unfold i128StepsBetween i128Forward
  by_cases hab : a ≤ b
  · rw [if_pos hab]
    refine ⟨?_, ?_, ?_⟩
    · intro hs
      by_cases h1 : b - a ≤ 2 ^ 127 - 1
      · rw [if_pos h1] at hs
        by_cases h2 : b - a < 2 ^ 64
        · rw [if_pos h2] at hs
          injection hs with hn
          subst hn
          have hc : (((b - a).toNat : ℤ)) = b - a := Int.toNat_of_nonneg (by linarith)
          rw [hc]
          have h3 : a + (b - a) = b := by ring
          rw [h3, if_pos ⟨by omega, hb2⟩]
        · rw [if_neg h2] at hs
          exact Option.noConfusion hs
      · rw [if_neg h1] at hs
        exact Option.noConfusion hs
    · intro hba
      exact absurd hab (by omega)
    · by_cases h1 : b - a ≤ 2 ^ 127 - 1
      · rw [if_pos h1]
        by_cases h2 : b - a < 2 ^ 64
        · rw [if_pos h2]
          constructor
          · intro h0
            injection h0 with h0
            omega
          · intro heq
            subst heq
            simp
        · rw [if_neg h2]
          refine ⟨fun h => Option.noConfusion h, fun heq => ?_⟩
          exfalso
          omega
      · rw [if_neg h1]
        refine ⟨fun h => Option.noConfusion h, fun heq => ?_⟩
        exfalso
        omega
  · rw [if_neg hab]
    exact ⟨fun hs => Option.noConfusion hs, fun _ => rfl,
      ⟨fun h => Option.noConfusion h, fun heq => absurd (le_of_eq heq) hab⟩⟩

set_option maxRecDepth 4000 in
theorem charStep_roundtrip (a b n : Nat) (hA : isScalar a) (hB : isScalar b) :
    (charStepsBetween a b = some n → charForward a n = some b) ∧
    (b < a → charStepsBetween a b = none) ∧
    (charStepsBetween a b = some 0 ↔ a = b) := by
  have hfwd : ∀ x m : Nat, x + m < 2 ^ 32 → uForward 32 x m = some (x + m) := by
    intro x m h
    unfold uForward
    rw [if_pos (by omega), if_pos h]
  unfold isScalar at hA hB
  unfold charStepsBetween
  by_cases hab : a ≤ b
  · rw [if_pos hab]
    refine ⟨?_, ?_, ?_⟩
    · intro hs
      by_cases hcross : a < 0xD800 ∧ 0xE000 ≤ b
      · rw [if_pos hcross] at hs
        have hn := Option.some.inj hs
        subst hn
        unfold charForward
        rw [hfwd a (b - a - 0x800) (by omega), Option.some_bind]
        have he : a + (b - a - 0x800) = b - 0x800 := by omega
        rw [he, if_pos (⟨by omega, by omega⟩ : a < 0xD800 ∧ 0xD800 ≤ b - 0x800)]
        rw [hfwd (b - 0x800) 0x800 (by omega), Option.some_bind]
        have he2 : b - 0x800 + 0x800 = b := by omega
        rw [he2, if_pos (by omega)]
      · rw [if_neg hcross] at hs
        have hn := Option.some.inj hs
        subst hn
        unfold charForward
        rw [hfwd a (b - a) (by omega), Option.some_bind]
        have he : a + (b - a) = b := by omega
        rw [he, if_neg (by omega : ¬(a < 0xD800 ∧ 0xD800 ≤ b)), Option.some_bind]
        rw [if_pos (by omega)]
    · intro hba
      exact absurd hab (by omega)
    · by_cases hcross : a < 0xD800 ∧ 0xE000 ≤ b
      · rw [if_pos hcross]
        constructor
        · intro h0
          have h0n := Option.some.inj h0
          omega
        · intro heq
          exact absurd hcross (by omega)
      · rw [if_neg hcross]
        constructor
        · intro h0
          have h0n := Option.some.inj h0
          omega
        · intro heq
          subst heq
          simp
  · rw [if_neg hab]
    exact ⟨fun hs => Option.noConfusion hs, fun _ => rfl,
      ⟨fun h => Option.noConfusion h, fun heq => absurd (le_of_eq heq) hab⟩⟩

/-- C10: the discrete `Step` relation used by `grid_step` satisfies the
round-trip law for every implementing family — unsigned and signed integers
narrower than or as wide as `usize` (any width `w`, covering u8/i8 through
u64/i64 and usize/isize on the 64-bit target), the wider `u128`/`i128`, and
`char` over Unicode scalar values: whenever `steps_between(&a, &b) = Some(n)`,
`forward(a, n) = Some(b)`; `steps_between` is `None` whenever `a > b`; and
`steps_between(&a, &b) = Some(0)` exactly when `a = b`. -/
theorem step_roundtrip_law :
    (∀ w a b n : Nat, b < 2 ^ w →
      ((uStepsBetween a b = some n → uForward w a n = some b) ∧
       (b < a → uStepsBetween a b = none) ∧
       (uStepsBetween a b = some 0 ↔ a = b))) ∧
    (∀ (w : Nat) (a b : ℤ) (n : Nat), 0 < w → -(2 ^ (w - 1)) ≤ a →
        -(2 ^ (w - 1)) ≤ b → b < 2 ^ (w - 1) →
      ((iStepsBetween a b = some n → iForward w a n = some b) ∧
       (b < a → iStepsBetween a b = none) ∧
       (iStepsBetween a b = some 0 ↔ a = b))) ∧
    (∀ a b n : Nat, b < 2 ^ 128 →
      ((u128StepsBetween a b = some n → u128Forward a n = some b) ∧
       (b < a → u128StepsBetween a b = none) ∧
       (u128StepsBetween a b = some 0 ↔ a = b))) ∧
    (∀ (a b : ℤ) (n : Nat), -(2 ^ 127) ≤ a → b ≤ 2 ^ 127 - 1 →
      ((i128StepsBetween a b = some n → i128Forward a n = some b) ∧
       (b < a → i128StepsBetween a b = none) ∧
       (i128StepsBetween a b = some 0 ↔ a = b))) ∧
    (∀ a b n : Nat, isScalar a → isScalar b →
      ((charStepsBetween a b = some n → charForward a n = some b) ∧
       (b < a → charStepsBetween a b = none) ∧
       (charStepsBetween a b = some 0 ↔ a = b))) :=
  ⟨fun w a b n hb => uStep_roundtrip w a b n hb,
   fun w a b n hw ha1 hb1 hb2 => iStep_roundtrip w a b n hw ha1 hb1 hb2,
   fun a b n hb => u128Step_roundtrip a b n hb,
   fun a b n ha1 hb2 => i128Step_roundtrip a b n ha1 hb2,
   fun a b n hA hB => charStep_roundtrip a b n hA hB⟩

/-- Witness for C10's unsigned clause at `w = 8`, `a = 3`, `b = 250`,
`n = 247`, and its char clause at `a = 0xD7FF`, `b = 0xE000`, `n = 1`. -/
theorem step_roundtrip_law_witness :
    ((250 : Nat) < 2 ^ 8 ∧
      ((uStepsBetween 3 250 = some 247 → uForward 8 3 247 = some 250) ∧
       (250 < 3 → uStepsBetween 3 250 = none) ∧
       (uStepsBetween 3 250 = some 0 ↔ 3 = 250))) ∧
    (isScalar 0xD7FF ∧ isScalar 0xE000 ∧
      ((charStepsBetween 0xD7FF 0xE000 = some 1 → charForward 0xD7FF 1 = some 0xE000) ∧
       (0xE000 < 0xD7FF → charStepsBetween 0xD7FF 0xE000 = none) ∧
       (charStepsBetween 0xD7FF 0xE000 = some 0 ↔ 0xD7FF = 0xE000))) :=
  ⟨⟨by norm_num, step_roundtrip_law.1 8 3 250 247 (by norm_num)⟩,
   ⟨Or.inl (by norm_num), Or.inr ⟨by norm_num, by norm_num⟩,
    step_roundtrip_law.2.2.2.2 0xD7FF 0xE000 1 (Or.inl (by norm_num))
      (Or.inr ⟨by norm_num, by norm_num⟩)⟩⟩

end IterNumTools
